import Mathlib

/-!
# Verification of the LectureLink chunked transcription pipeline

A shallow embedding of the audio-chunking / retry-driven transcription code:

* `Part015.splitBuffer` embeds the `splitBuffer` helper of the server route
  (`src/unnamed/part_015`, lines 11-20).
* The `Client` namespace embeds `src/utils/transcriptionClient.ts`:
  `transcribeChunkWithRetry` (single credential, generic catch-and-retry) and
  `transcribeAudio` (inline chunk splitting plus the sequential chunk loop).
* The `Keyed` namespace embeds the multi-key variant of
  `src/unnamed/part_003`: `transcribeChunkWithRetry` with credential rotation
  on HTTP 429 and round-robin advance on other failures.

JavaScript strings are embedded as `List Char` (`Str`), byte buffers as
`List Nat`, and the remote service as a function from the attempt number to a
`Response`.  The unbounded recursion of the source is embedded with an explicit
fuel argument; running out of fuel is reported as a non-terminal
`attempting` state (for the retry controllers) or `none` (for loops), so
non-termination of the source is observable in the embedding.  Each controller
also returns a trace of the attempts it performed, so that claims about "how
many attempts happened with which credential" are statements about the model.
-/

/-- JavaScript strings, embedded as lists of characters. -/
abbrev Str := List Char

/-- Whitespace test used by `String.prototype.trim` (restricted to the
whitespace characters that can actually occur in the transcripts here). -/
def jsWS (c : Char) : Bool :=
  c = ' ' || c = '\t' || c = '\n' || c = '\r'

/-- Embedding of `String.prototype.trim`: drop whitespace from both ends. -/
def jsTrim (s : Str) : Str :=
  ((s.dropWhile jsWS).reverse.dropWhile jsWS).reverse

/-- The space-joined concatenation of a list of texts, i.e. the spec's
"space-joined concatenation of the per-segment texts". -/
def spaceJoin : List Str → Str
  | [] => []
  | [t] => t
  | t :: ts => t ++ ' ' :: spaceJoin ts

/-- A single response of the remote transcription service, as observed by the
client: a successful JSON body with a `text` field, an HTTP error status with
an optional `error.message` body, or a network failure (rejected `fetch`). -/
inductive Response where
  | ok (text : Str)
  | httpErr (status : Nat) (msg : Option Str)
  | networkErr (msg : Str)
deriving DecidableEq

/-- Message of the error thrown by the client for a failed attempt:
`'File too large. Please try a smaller chunk size.'` for HTTP 413, otherwise
`error.error?.message || 'Transcription failed with status S'`; a network
failure propagates its own message. -/
def throwMsg : Response → Str
  | .ok _ => []
  | .httpErr status msg =>
      if status = 413 then
        "File too large. Please try a smaller chunk size.".data
      else
        msg.getD (("Transcription failed with status ".data) ++ (toString status).data)
  | .networkErr msg => msg

/-- A transient retryable failure in the sense of the spec: a network failure
or an HTTP error other than 413 and 429. -/
def Transient : Response → Prop
  | .ok _ => False
  | .httpErr status _ => status ≠ 413 ∧ status ≠ 429
  | .networkErr _ => True

/-- A rate-limit response (HTTP 429). -/
def Is429 : Response → Prop
  | .httpErr status _ => status = 429
  | .ok _ => False
  | .networkErr _ => False

/-- Reference chunking: split a list into consecutive pieces of `maxSize`
elements (the last piece possibly shorter), with fuel.  For `0 < maxSize` the
fuel `l.length` always suffices. -/
def chunksOfGo (maxSize : Nat) : Nat → List Nat → List (List Nat)
  | 0, _ => []
  | fuel + 1, l =>
      if l.isEmpty then []
      else l.take maxSize :: chunksOfGo maxSize fuel (l.drop maxSize)

/-- Reference chunking of a whole list. -/
def chunksOf (maxSize : Nat) (l : List Nat) : List (List Nat) :=
  chunksOfGo maxSize l.length l

theorem chunksOfGo_nil (maxSize : Nat) : ∀ fuel, chunksOfGo maxSize fuel [] = []
  | 0 => rfl
  | _ + 1 => rfl

theorem chunksOfGo_fuel_irrel (maxSize : Nat) (hM : 0 < maxSize) :
    ∀ fuel₁ fuel₂ (l : List Nat), l.length ≤ fuel₁ → l.length ≤ fuel₂ →
      chunksOfGo maxSize fuel₁ l = chunksOfGo maxSize fuel₂ l := by
  intro fuel₁
  induction fuel₁ with
  | zero =>
      intro fuel₂ l h₁ _
      have : l = [] := List.eq_nil_of_length_eq_zero (Nat.le_zero.mp h₁)
      subst this
      rw [chunksOfGo_nil, chunksOfGo_nil]
  | succ fuel ih =>
      intro fuel₂ l h₁ h₂
      cases l with
      | nil => rw [chunksOfGo_nil, chunksOfGo_nil]
      | cons c cs =>
          cases fuel₂ with
          | zero => exact absurd h₂ (by simp)
          | succ fuel₂' =>
              simp only [chunksOfGo, List.isEmpty_cons, Bool.false_eq_true, if_false]
              congr 1
              apply ih
              · calc ((c :: cs).drop maxSize).length
                      = (c :: cs).length - maxSize := by rw [List.length_drop]
                  _ ≤ fuel := by simp at h₁ ⊢; omega
              · calc ((c :: cs).drop maxSize).length
                      = (c :: cs).length - maxSize := by rw [List.length_drop]
                  _ ≤ fuel₂' := by simp at h₂ ⊢; omega

theorem chunksOf_eq_go (maxSize : Nat) (hM : 0 < maxSize) (fuel : Nat) (l : List Nat)
    (hf : l.length ≤ fuel) : chunksOfGo maxSize fuel l = chunksOf maxSize l :=
  chunksOfGo_fuel_irrel maxSize hM fuel l.length l hf (Nat.le_refl _)

theorem length_pos_of_ne_nil' {α : Type} {l : List α} (h : l ≠ []) : 0 < l.length :=
  Nat.pos_of_ne_zero (fun h0 => h (List.eq_nil_of_length_eq_zero h0))

theorem chunksOfGo_flatten (maxSize : Nat) (hM : 0 < maxSize) :
    ∀ fuel (l : List Nat), l.length ≤ fuel →
      (chunksOfGo maxSize fuel l).flatten = l := by
  intro fuel
  induction fuel with
  | zero =>
      intro l h
      have : l = [] := List.eq_nil_of_length_eq_zero (Nat.le_zero.mp h)
      subst this; rfl
  | succ fuel ih =>
      intro l h
      cases l with
      | nil => rfl
      | cons c cs =>
          simp only [chunksOfGo, List.isEmpty_cons, Bool.false_eq_true, if_false,
            List.flatten_cons]
          rw [ih]
          · exact List.take_append_drop maxSize (c :: cs)
          · rw [List.length_drop]; simp at h ⊢; omega

theorem chunksOfGo_length (maxSize : Nat) (hM : 0 < maxSize) :
    ∀ fuel (l : List Nat), l.length ≤ fuel →
      (chunksOfGo maxSize fuel l).length = (l.length + maxSize - 1) / maxSize := by
  intro fuel
  induction fuel with
  | zero =>
      intro l h
      have : l = [] := List.eq_nil_of_length_eq_zero (Nat.le_zero.mp h)
      subst this
      rw [chunksOfGo_nil]
      simp only [List.length_nil]
      rw [Nat.div_eq_of_lt (by omega)]
  | succ fuel ih =>
      intro l h
      cases l with
      | nil =>
          rw [chunksOfGo_nil]
          simp only [List.length_nil]
          rw [Nat.div_eq_of_lt (by omega)]
      | cons c cs =>
          simp only [chunksOfGo, List.isEmpty_cons, Bool.false_eq_true, if_false,
            List.length_cons]
          rw [ih]
          · rw [List.length_drop, List.length_cons]
            rcases le_or_lt (cs.length + 1) maxSize with hle | hlt
            · have h0 : cs.length + 1 - maxSize = 0 := by omega
              rw [h0, Nat.div_eq_of_lt (show 0 + maxSize - 1 < maxSize by omega)]
              have heq : cs.length + 1 + maxSize - 1 = cs.length + maxSize := by omega
              rw [heq, Nat.add_div_right _ hM,
                Nat.div_eq_of_lt (show cs.length < maxSize by omega)]
            · have heq : cs.length + 1 + maxSize - 1
                  = ((cs.length + 1 - maxSize) + maxSize - 1) + maxSize := by omega
              rw [heq, Nat.add_div_right _ hM]
          · rw [List.length_drop]; simp at h ⊢; omega

theorem chunksOfGo_dropLast_length (maxSize : Nat) (hM : 0 < maxSize) :
    ∀ fuel (l : List Nat), l.length ≤ fuel →
      ∀ c ∈ (chunksOfGo maxSize fuel l).dropLast, c.length = maxSize := by
  intro fuel
  induction fuel with
  | zero =>
      intro l h
      have : l = [] := List.eq_nil_of_length_eq_zero (Nat.le_zero.mp h)
      subst this
      simp [chunksOfGo_nil]
  | succ fuel ih =>
      intro l h
      cases l with
      | nil => simp [chunksOfGo_nil]
      | cons a as =>
          simp only [chunksOfGo, List.isEmpty_cons, Bool.false_eq_true, if_false]
          intro c hc
          by_cases hrest : (a :: as).drop maxSize = []
          · rw [hrest, chunksOfGo_nil] at hc
            simp at hc
          · have hlen : 0 < ((a :: as).drop maxSize).length := length_pos_of_ne_nil' hrest
            have hfuel' : ((a :: as).drop maxSize).length ≤ fuel := by
              rw [List.length_drop]; simp at h ⊢; omega
            have hlt2 : maxSize < as.length + 1 := by
              by_contra hcontra
              push_neg at hcontra
              exact hrest (List.drop_eq_nil_iff.mpr (by simp; omega))
            have hne : chunksOfGo maxSize fuel ((a :: as).drop maxSize) ≠ [] := by
              cases fuel with
              | zero => omega
              | succ fuel' =>
                  simp only [chunksOfGo]
                  rw [if_neg (by simp [List.isEmpty_iff]; omega)]
                  simp
            rw [List.dropLast_cons_of_ne_nil hne] at hc
            rcases List.mem_cons.mp hc with rfl | hc'
            · rw [List.length_take]
              rw [List.length_drop] at hlen
              simp at hlen ⊢
              omega
            · exact ih _ hfuel' c hc'

theorem chunksOfGo_getLast (maxSize : Nat) (hM : 0 < maxSize) :
    ∀ fuel (l : List Nat), l.length ≤ fuel → l ≠ [] →
      ∀ c, (chunksOfGo maxSize fuel l).getLast? = some c →
        c.length = if l.length % maxSize = 0 then maxSize else l.length % maxSize := by
  intro fuel
  induction fuel with
  | zero =>
      intro l h hne
      exact absurd (List.eq_nil_of_length_eq_zero (Nat.le_zero.mp h)) hne
  | succ fuel ih =>
      intro l h hne c hc
      cases l with
      | nil => exact absurd rfl hne
      | cons a as =>
          simp only [chunksOfGo, List.isEmpty_cons, Bool.false_eq_true, if_false] at hc
          by_cases hrest : (a :: as).drop maxSize = []
          · rw [hrest, chunksOfGo_nil] at hc
            simp at hc
            subst hc
            have hlen : (a :: as).length ≤ maxSize := List.drop_eq_nil_iff.mp hrest
            rw [List.take_of_length_le hlen]
            rcases Nat.lt_or_ge (a :: as).length maxSize with hlt | hge
            · rw [if_neg]
              · rw [Nat.mod_eq_of_lt hlt]
              · rw [Nat.mod_eq_of_lt hlt]; simp
            · have heq : (a :: as).length = maxSize := Nat.le_antisymm hlen hge
              rw [heq]
              simp
          · have hfuel' : ((a :: as).drop maxSize).length ≤ fuel := by
              rw [List.length_drop]; simp at h ⊢; omega
            cases hh : chunksOfGo maxSize fuel ((a :: as).drop maxSize) with
            | nil =>
                have hlen : 0 < ((a :: as).drop maxSize).length := length_pos_of_ne_nil' hrest
                have hlt2 : maxSize < as.length + 1 := by
                  by_contra hcontra
                  push_neg at hcontra
                  exact hrest (List.drop_eq_nil_iff.mpr (by simp; omega))
                cases fuel with
                | zero => omega
                | succ fuel' =>
                    rw [chunksOfGo, if_neg (by simp [List.isEmpty_iff]; omega)] at hh
                    exact absurd hh (by simp)
            | cons x xs =>
                rw [hh, List.getLast?_cons_cons] at hc
                rw [← hh] at hc
                have hrec := ih _ hfuel' hrest c hc
                have hge : maxSize ≤ (a :: as).length := by
                  by_contra hlt
                  push_neg at hlt
                  exact hrest (List.drop_eq_nil_iff.mpr (Nat.le_of_lt hlt))
                have hmod : ((a :: as).drop maxSize).length % maxSize
                    = (a :: as).length % maxSize := by
                  rw [List.length_drop]
                  conv_rhs =>
                    rw [show (a :: as).length = ((a :: as).length - maxSize) + maxSize by omega]
                  rw [Nat.add_mod_right]
                rw [hmod] at hrec
                exact hrec

theorem chunksOf_ne_nil (maxSize : Nat) (l : List Nat) (hl : l ≠ []) :
    chunksOf maxSize l ≠ [] := by
  cases l with
  | nil => exact absurd rfl hl
  | cons a as =>
      simp only [chunksOf, List.length_cons, chunksOfGo]
      rw [if_neg (by simp)]
      simp

theorem dropWhile_append_sp : ∀ (x : Str),
    (x ++ [' ']).dropWhile jsWS
      = if x.dropWhile jsWS = [] then [] else x.dropWhile jsWS ++ [' '] := by
  intro x
  induction x with
  | nil => simp [List.dropWhile, jsWS]
  | cons c cs ih =>
      simp only [List.cons_append, List.dropWhile_cons]
      by_cases hc : jsWS c
      · simp only [hc, if_true, ih]
      · simp [hc]

theorem jsTrim_append_space (x : Str) : jsTrim (x ++ [' ']) = jsTrim x := by
  unfold jsTrim
  rw [dropWhile_append_sp]
  by_cases h : x.dropWhile jsWS = []
  · simp [h]
  · rw [if_neg h, List.reverse_append]
    simp [List.dropWhile_cons, jsWS]

theorem flatten_map_space (ts : List Str) (hne : ts ≠ []) :
    (ts.map (fun t => t ++ [' '])).flatten = spaceJoin ts ++ [' '] := by
  induction ts with
  | nil => exact absurd rfl hne
  | cons t ts ih =>
      cases ts with
      | nil => simp [spaceJoin]
      | cons u us =>
          simp only [List.map_cons, List.flatten_cons] at *
          rw [ih (by simp)]
          simp [spaceJoin]

theorem jsTrim_flatten_map_space (ts : List Str) :
    jsTrim ((ts.map (fun t => t ++ [' '])).flatten) = jsTrim (spaceJoin ts) := by
  cases ts with
  | nil => rfl
  | cons t ts => rw [flatten_map_space _ (by simp), jsTrim_append_space]

namespace Part015

/-- Embedding of `splitBuffer` (`src/unnamed/part_015`, lines 11-20): the
`while (offset < buffer.length)` loop with `end = min(offset + maxSizeInBytes,
buffer.length)`, pushing `buffer.slice(offset, end)` and setting
`offset = end`.  The fuel argument makes the unbounded loop a total function;
`none` means the loop has not finished within the given number of
iterations. -/
def splitBufferGo (buffer : List Nat) (maxSizeInBytes : Nat) :
    Nat → Nat → List (List Nat) → Option (List (List Nat))
  | 0, offset, acc => if offset < buffer.length then none else some acc
  | fuel + 1, offset, acc =>
      if offset < buffer.length then
        splitBufferGo buffer maxSizeInBytes fuel (min (offset + maxSizeInBytes) buffer.length)
          (acc ++ [(buffer.drop offset).take (min (offset + maxSizeInBytes) buffer.length - offset)])
      else some acc

/-- `splitBuffer` run from the start with fuel `buffer.length`, which is
always sufficient when `maxSizeInBytes > 0`. -/
def splitBuffer (buffer : List Nat) (maxSizeInBytes : Nat) : Option (List (List Nat)) :=
  splitBufferGo buffer maxSizeInBytes buffer.length 0 []

end Part015

theorem chunksOf_eq_cons (M : Nat) (hM : 0 < M) (l : List Nat) (hl : l ≠ []) :
    chunksOf M l = l.take M :: chunksOf M (l.drop M) := by
  cases l with
  | nil => exact absurd rfl hl
  | cons a as =>
      show chunksOfGo M (as.length + 1) (a :: as) = _
      simp only [chunksOfGo]
      rw [if_neg (by simp)]
      congr 1
      apply chunksOf_eq_go M hM
      rw [List.length_drop]
      simp
      omega

theorem splitBufferGo_eq_chunks (buffer : List Nat) (M : Nat) (hM : 0 < M) :
    ∀ fuel offset acc, buffer.length - offset ≤ fuel →
      Part015.splitBufferGo buffer M fuel offset acc
        = some (acc ++ chunksOf M (buffer.drop offset)) := by
  intro fuel
  induction fuel with
  | zero =>
      intro offset acc h
      have hge : buffer.length ≤ offset := by omega
      rw [Part015.splitBufferGo, if_neg (by omega)]
      rw [List.drop_eq_nil_iff.mpr hge]
      simp [chunksOf, chunksOfGo_nil]
  | succ fuel ih =>
      intro offset acc h
      by_cases hoff : offset < buffer.length
      · rw [Part015.splitBufferGo, if_pos hoff]
        have hrest : buffer.drop offset ≠ [] := by
          intro hnil
          have := List.drop_eq_nil_iff.mp hnil
          omega
        rw [chunksOf_eq_cons M hM _ hrest]
        rcases le_or_lt (offset + M) buffer.length with hcase | hcase
        · have hmin : min (offset + M) buffer.length = offset + M := by omega
          rw [hmin]
          have htk : (buffer.drop offset).take (offset + M - offset)
              = (buffer.drop offset).take M := by
            congr 1
            omega
          rw [htk, ih (offset + M) _ (by omega)]
          have hdd : (buffer.drop offset).drop M = buffer.drop (offset + M) := by
            rw [List.drop_drop, Nat.add_comm]
          rw [hdd, List.append_assoc, List.singleton_append]
        · have hmin : min (offset + M) buffer.length = buffer.length := by omega
          rw [hmin]
          have hlenrest : (buffer.drop offset).length = buffer.length - offset := by
            rw [List.length_drop]
          have htk : (buffer.drop offset).take (buffer.length - offset)
              = buffer.drop offset := by
            rw [← hlenrest, List.take_length]
          rw [htk, ih buffer.length _ (by omega)]
          rw [List.drop_eq_nil_iff.mpr (Nat.le_refl _)]
          have hdropM : (buffer.drop offset).drop M = [] := by
            rw [List.drop_drop, List.drop_eq_nil_iff]
            omega
          have htkM : (buffer.drop offset).take M = buffer.drop offset := by
            apply List.take_of_length_le
            rw [hlenrest]
            omega
          rw [hdropM, htkM]
          simp [chunksOf, chunksOfGo_nil]
      · rw [Part015.splitBufferGo, if_neg hoff]
        rw [List.drop_eq_nil_iff.mpr (by omega)]
        simp [chunksOf, chunksOfGo_nil]

theorem splitBuffer_eq_chunksOf (buffer : List Nat) (M : Nat) (hM : 0 < M) :
    Part015.splitBuffer buffer M = some (chunksOf M buffer) := by
  rw [Part015.splitBuffer, splitBufferGo_eq_chunks buffer M hM buffer.length 0 [] (by omega)]
  rw [List.drop_zero, List.nil_append]

theorem splitBufferGo_zero_diverges (buffer : List Nat) :
    ∀ fuel offset acc, offset < buffer.length →
      Part015.splitBufferGo buffer 0 fuel offset acc = none := by
  intro fuel
  induction fuel with
  | zero =>
      intro offset acc h
      rw [Part015.splitBufferGo, if_pos h]
  | succ fuel ih =>
      intro offset acc h
      rw [Part015.splitBufferGo, if_pos h]
      have hmin : min (offset + 0) buffer.length = offset := by omega
      rw [hmin]
      exact ih offset _ h

namespace Client

/-- `MAX_FILE_SIZE` of `src/utils/transcriptionClient.ts`. -/
def MAX_FILE_SIZE : Nat := 20 * 1024 * 1024

/-- `MAX_RETRIES` of `src/utils/transcriptionClient.ts`. -/
def MAX_RETRIES : Nat := 3

/-- Result state of one run of the single-credential retry controller. -/
inductive RetryState where
  | attempting (retryCount : Nat)
  | success (text : Str)
  | failed (err : Str)
deriving DecidableEq

/-- Embedding of `transcribeChunkWithRetry` (`src/utils/transcriptionClient.ts`,
lines 9-43).  The chunk's bytes do not influence the control flow, so the
remote service is abstracted as `backend : Nat → Response` giving the response
of the j-th outbound request of this controller run.  Every thrown error
(including the dedicated HTTP 413 error) lands in the `catch` block, which
retries while `retryCount < maxRetries` and otherwise rethrows; `throwMsg`
computes the thrown message.  The returned trace lists the `retryCount` value
of every request that was issued. -/
def transcribeChunkWithRetry (maxRetries : Nat) (backend : Nat → Response) :
    Nat → Nat → Nat → List Nat → RetryState × List Nat
  | 0, retryCount, _, trace => (.attempting retryCount, trace)
  | fuel + 1, retryCount, j, trace =>
      match backend j with
      | .ok t => (.success t, trace ++ [retryCount])
      | r =>
          if retryCount < maxRetries then
            transcribeChunkWithRetry maxRetries backend fuel (retryCount + 1) (j + 1)
              (trace ++ [retryCount])
          else (.failed (throwMsg r), trace ++ [retryCount])

/-- Embedding of the chunk-splitting `while (offset < audioFile.size)` loop of
`transcribeAudio` (`src/utils/transcriptionClient.ts`, lines 51-56):
`audioFile.slice(offset, offset + MAX_FILE_SIZE)` is pushed and `offset`
advances by `MAX_FILE_SIZE`. -/
def splitLoop (audio : List Nat) (maxFileSize : Nat) :
    Nat → Nat → List (List Nat) → Option (List (List Nat))
  | 0, offset, chunks => if offset < audio.length then none else some chunks
  | fuel + 1, offset, chunks =>
      if offset < audio.length then
        splitLoop audio maxFileSize fuel (offset + maxFileSize)
          (chunks ++ [(audio.drop offset).take maxFileSize])
      else some chunks

/-- The wrapped error message `Failed to process chunk I: MSG` thrown by the
chunk loop of `transcribeAudio` (1-based chunk index). -/
def failMsg (idx : Nat) (msg : Str) : Str :=
  ("Failed to process chunk ".data) ++ (toString idx).data ++ (": ".data) ++ msg

/-- Embedding of the sequential chunk-processing `for` loop of
`transcribeAudio` (`src/utils/transcriptionClient.ts`, lines 61-73) together
with the final `fullTranscription.trim()`: on success the loop appends
`result.text + ' '` and continues; on a controller failure it throws the
wrapped `Failed to process chunk i+1` error, which `transcribeAudio`
rethrows.  The second component collects the request traces of every
controller run, in order; `none` means some controller run did not finish
within its fuel. -/
def processLoop (maxRetries : Nat) (backend : Nat → Nat → Response) (fuel : Nat) :
    List (List Nat) → Nat → Str → List Nat → Option (Except Str Str) × List Nat
  | [], _, acc, events => (some (.ok (jsTrim acc)), events)
  | _chunk :: rest, i, acc, events =>
      match transcribeChunkWithRetry maxRetries (backend i) fuel 0 0 [] with
      | (.success t, ctr) =>
          processLoop maxRetries backend fuel rest (i + 1) (acc ++ t ++ [' ']) (events ++ ctr)
      | (.failed e, ctr) => (some (.error (failMsg (i + 1) e)), events ++ ctr)
      | (.attempting _, ctr) => (none, events ++ ctr)

/-- Embedding of `transcribeAudio` (`src/utils/transcriptionClient.ts`,
lines 45-78), with the segment size and retry bound as parameters so that the
theorems can quantify over them; the source instantiates them with
`MAX_FILE_SIZE` and `MAX_RETRIES` (see `transcribeAudio` below).
`backend i j` is the response to the j-th request issued for chunk `i`. -/
def transcribeAudioWith (maxFileSize maxRetries : Nat) (backend : Nat → Nat → Response)
    (fuel : Nat) (audio : List Nat) : Option (Except Str Str) × List Nat :=
  match splitLoop audio maxFileSize audio.length 0 [] with
  | none => (none, [])
  | some chunks => processLoop maxRetries backend fuel chunks 0 [] []

/-- `transcribeAudio` with the source's constants. -/
def transcribeAudio (backend : Nat → Nat → Response) (fuel : Nat)
    (audio : List Nat) : Option (Except Str Str) × List Nat :=
  transcribeAudioWith MAX_FILE_SIZE MAX_RETRIES backend fuel audio

end Client

theorem splitLoop_eq_chunks (audio : List Nat) (M : Nat) (hM : 0 < M) :
    ∀ fuel offset chunks, audio.length - offset ≤ fuel →
      Client.splitLoop audio M fuel offset chunks
        = some (chunks ++ chunksOf M (audio.drop offset)) := by
  intro fuel
  induction fuel with
  | zero =>
      intro offset chunks h
      rw [Client.splitLoop, if_neg (by omega)]
      rw [List.drop_eq_nil_iff.mpr (by omega)]
      simp [chunksOf, chunksOfGo_nil]
  | succ fuel ih =>
      intro offset chunks h
      by_cases hoff : offset < audio.length
      · rw [Client.splitLoop, if_pos hoff]
        have hrest : audio.drop offset ≠ [] := by
          intro hnil
          have := List.drop_eq_nil_iff.mp hnil
          omega
        rw [chunksOf_eq_cons M hM _ hrest]
        rw [ih (offset + M) _ (by omega)]
        have hdd : (audio.drop offset).drop M = audio.drop (offset + M) := by
          rw [List.drop_drop, Nat.add_comm]
        rw [hdd, List.append_assoc, List.singleton_append]
      · rw [Client.splitLoop, if_neg hoff]
        rw [List.drop_eq_nil_iff.mpr (by omega)]
        simp [chunksOf, chunksOfGo_nil]

theorem transcribeAudioWith_eq_processLoop (M maxR : Nat) (hM : 0 < M)
    (backend : Nat → Nat → Response) (fuel : Nat) (audio : List Nat) :
    Client.transcribeAudioWith M maxR backend fuel audio
      = Client.processLoop maxR backend fuel (chunksOf M audio) 0 [] [] := by
  rw [Client.transcribeAudioWith, splitLoop_eq_chunks audio M hM audio.length 0 [] (by omega)]
  rw [List.drop_zero, List.nil_append]

theorem retry_always_transient (maxR : Nat) (backend : Nat → Response)
    (htrans : ∀ j, Transient (backend j)) :
    ∀ fuel rc j acc, rc ≤ maxR → maxR + 1 ≤ fuel + rc →
      Client.transcribeChunkWithRetry maxR backend fuel rc j acc
        = (.failed (throwMsg (backend (j + (maxR - rc)))),
            acc ++ List.range' rc (maxR + 1 - rc)) := by
  intro fuel
  induction fuel with
  | zero => intro rc j acc h1 h2; omega
  | succ fuel ih =>
      intro rc j acc h1 h2
      cases hbj : backend j with
      | ok t =>
          have hT := htrans j
          rw [hbj] at hT
          exact absurd hT (by simp [Transient])
      | httpErr s m =>
          simp only [Client.transcribeChunkWithRetry, hbj]
          by_cases hrc : rc < maxR
          · rw [if_pos hrc, ih (rc + 1) (j + 1) (acc ++ [rc]) (by omega) (by omega)]
            have hj : (j + 1) + (maxR - (rc + 1)) = j + (maxR - rc) := by omega
            have hr : maxR + 1 - rc = (maxR + 1 - (rc + 1)) + 1 := by omega
            rw [hj, hr, List.range'_succ, List.append_assoc, List.singleton_append]
          · rw [if_neg hrc]
            rw [show maxR - rc = 0 by omega, Nat.add_zero, hbj,
              show maxR + 1 - rc = 1 by omega, List.range'_one]
      | networkErr m =>
          simp only [Client.transcribeChunkWithRetry, hbj]
          by_cases hrc : rc < maxR
          · rw [if_pos hrc, ih (rc + 1) (j + 1) (acc ++ [rc]) (by omega) (by omega)]
            have hj : (j + 1) + (maxR - (rc + 1)) = j + (maxR - rc) := by omega
            have hr : maxR + 1 - rc = (maxR + 1 - (rc + 1)) + 1 := by omega
            rw [hj, hr, List.range'_succ, List.append_assoc, List.singleton_append]
          · rw [if_neg hrc]
            rw [show maxR - rc = 0 by omega, Nat.add_zero, hbj,
              show maxR + 1 - rc = 1 by omega, List.range'_one]

theorem processLoop_cons_success (maxR : Nat) (backend : Nat → Nat → Response) (fuelC : Nat)
    (c : List Nat) (rest : List (List Nat)) (i : Nat) (acc : Str) (events : List Nat)
    (t : Str) (ctr : List Nat)
    (h : Client.transcribeChunkWithRetry maxR (backend i) fuelC 0 0 [] = (.success t, ctr)) :
    Client.processLoop maxR backend fuelC (c :: rest) i acc events
      = Client.processLoop maxR backend fuelC rest (i + 1) (acc ++ t ++ [' '])
          (events ++ ctr) := by
  simp only [Client.processLoop, h]

theorem processLoop_cons_failed (maxR : Nat) (backend : Nat → Nat → Response) (fuelC : Nat)
    (c : List Nat) (rest : List (List Nat)) (i : Nat) (acc : Str) (events : List Nat)
    (e : Str) (ctr : List Nat)
    (h : Client.transcribeChunkWithRetry maxR (backend i) fuelC 0 0 [] = (.failed e, ctr)) :
    Client.processLoop maxR backend fuelC (c :: rest) i acc events
      = (some (.error (Client.failMsg (i + 1) e)), events ++ ctr) := by
  simp only [Client.processLoop, h]

theorem processLoop_success_all (maxR : Nat) (backend : Nat → Nat → Response) (fuelC : Nat) :
    ∀ (cs : List (List Nat)) (ts : List Str) (i0 : Nat) (acc : Str) (events : List Nat),
      ts.length = cs.length →
      (∀ jj (h : jj < ts.length),
        (Client.transcribeChunkWithRetry maxR (backend (i0 + jj)) fuelC 0 0 []).1
          = .success (ts.get ⟨jj, h⟩)) →
      (Client.processLoop maxR backend fuelC cs i0 acc events).1
        = some (.ok (jsTrim (acc ++ (ts.map (fun t => t ++ [' '])).flatten))) := by
  intro cs
  induction cs with
  | nil =>
      intro ts i0 acc events hlen hsucc
      have hts : ts = [] := List.eq_nil_of_length_eq_zero (by simpa using hlen)
      subst hts
      simp [Client.processLoop]
  | cons c rest ih =>
      intro ts i0 acc events hlen hsucc
      cases ts with
      | nil => simp at hlen
      | cons t ts' =>
          have h0 := hsucc 0 (by simp)
          rw [Nat.add_zero] at h0
          rcases hres : Client.transcribeChunkWithRetry maxR (backend i0) fuelC 0 0 []
            with ⟨st, ctr⟩
          rw [hres] at h0
          simp at h0
          subst h0
          rw [processLoop_cons_success maxR backend fuelC c rest i0 acc events t ctr hres]
          have hs' : ∀ jj (h : jj < ts'.length),
              (Client.transcribeChunkWithRetry maxR (backend ((i0 + 1) + jj)) fuelC 0 0 []).1
                = .success (ts'.get ⟨jj, h⟩) := by
            intro jj h
            have hx := hsucc (jj + 1) (by simpa using Nat.succ_lt_succ h)
            rw [show i0 + (jj + 1) = (i0 + 1) + jj by omega] at hx
            simpa using hx
          rw [ih ts' (i0 + 1) _ _ (by simpa using hlen) hs']
          simp [List.append_assoc]

theorem processLoop_abort (maxR : Nat) (backend : Nat → Nat → Response) (fuelC : Nat)
    (e : Str) :
    ∀ (cs : List (List Nat)) (i : Nat) (i0 : Nat) (acc : Str) (events : List Nat),
      i < cs.length →
      (∀ jj, jj < i → ∃ t,
        (Client.transcribeChunkWithRetry maxR (backend (i0 + jj)) fuelC 0 0 []).1
          = .success t) →
      (Client.transcribeChunkWithRetry maxR (backend (i0 + i)) fuelC 0 0 []).1 = .failed e →
      (Client.processLoop maxR backend fuelC cs i0 acc events).1
        = some (.error (Client.failMsg (i0 + i + 1) e)) := by
  intro cs
  induction cs with
  | nil => intro i i0 acc events hi; simp at hi
  | cons c rest ih =>
      intro i i0 acc events hi hpre hfail
      cases i with
      | zero =>
          rw [Nat.add_zero] at hfail
          rcases hres : Client.transcribeChunkWithRetry maxR (backend i0) fuelC 0 0 []
            with ⟨st, ctr⟩
          rw [hres] at hfail
          simp at hfail
          subst hfail
          rw [processLoop_cons_failed maxR backend fuelC c rest i0 acc events e ctr hres]
      | succ i' =>
          obtain ⟨t, ht⟩ := hpre 0 (by omega)
          rw [Nat.add_zero] at ht
          rcases hres : Client.transcribeChunkWithRetry maxR (backend i0) fuelC 0 0 []
            with ⟨st, ctr⟩
          rw [hres] at ht
          simp at ht
          subst ht
          rw [processLoop_cons_success maxR backend fuelC c rest i0 acc events t ctr hres]
          have hpre' : ∀ jj, jj < i' → ∃ u,
              (Client.transcribeChunkWithRetry maxR (backend ((i0 + 1) + jj)) fuelC 0 0 []).1
                = .success u := by
            intro jj h
            obtain ⟨u, hu⟩ := hpre (jj + 1) (by omega)
            rw [show i0 + (jj + 1) = (i0 + 1) + jj by omega] at hu
            exact ⟨u, hu⟩
          have hfail' :
              (Client.transcribeChunkWithRetry maxR (backend ((i0 + 1) + i')) fuelC 0 0 []).1
                = .failed e := by
            rw [show (i0 + 1) + i' = i0 + (i' + 1) by omega]
            exact hfail
          rw [ih i' (i0 + 1) _ _ (by simpa using hi) hpre' hfail']
          rw [show (i0 + 1) + i' + 1 = i0 + (i' + 1) + 1 by omega]

theorem processLoop_agree (maxR : Nat) (backend backend2 : Nat → Nat → Response)
    (fuelC : Nat) :
    ∀ (cs : List (List Nat)) (i : Nat) (i0 : Nat) (acc : Str) (events : List Nat),
      i < cs.length →
      (∀ jj, jj < i → ∃ t,
        (Client.transcribeChunkWithRetry maxR (backend (i0 + jj)) fuelC 0 0 []).1
          = .success t) →
      (∃ e, (Client.transcribeChunkWithRetry maxR (backend (i0 + i)) fuelC 0 0 []).1
          = .failed e) →
      (∀ jj, jj ≤ i → backend2 (i0 + jj) = backend (i0 + jj)) →
      Client.processLoop maxR backend2 fuelC cs i0 acc events
        = Client.processLoop maxR backend fuelC cs i0 acc events := by
  intro cs
  induction cs with
  | nil => intro i i0 acc events hi; simp at hi
  | cons c rest ih =>
      intro i i0 acc events hi hpre hfail hagree
      have hb0 : backend2 i0 = backend i0 := by
        have := hagree 0 (by omega)
        rwa [Nat.add_zero] at this
      cases i with
      | zero =>
          obtain ⟨e, hfail⟩ := hfail
          rw [Nat.add_zero] at hfail
          rcases hres : Client.transcribeChunkWithRetry maxR (backend i0) fuelC 0 0 []
            with ⟨st, ctr⟩
          rw [hres] at hfail
          simp at hfail
          subst hfail
          rw [processLoop_cons_failed maxR backend fuelC c rest i0 acc events e ctr hres,
            processLoop_cons_failed maxR backend2 fuelC c rest i0 acc events e ctr
              (by rw [hb0]; exact hres)]
      | succ i' =>
          obtain ⟨t, ht⟩ := hpre 0 (by omega)
          rw [Nat.add_zero] at ht
          rcases hres : Client.transcribeChunkWithRetry maxR (backend i0) fuelC 0 0 []
            with ⟨st, ctr⟩
          rw [hres] at ht
          simp at ht
          subst ht
          rw [processLoop_cons_success maxR backend fuelC c rest i0 acc events t ctr hres,
            processLoop_cons_success maxR backend2 fuelC c rest i0 acc events t ctr
              (by rw [hb0]; exact hres)]
          apply ih i' (i0 + 1)
          · simpa using hi
          · intro jj h
            obtain ⟨u, hu⟩ := hpre (jj + 1) (by omega)
            rw [show i0 + (jj + 1) = (i0 + 1) + jj by omega] at hu
            exact ⟨u, hu⟩
          · obtain ⟨e, he⟩ := hfail
            rw [show i0 + (i' + 1) = (i0 + 1) + i' by omega] at he
            exact ⟨e, he⟩
          · intro jj h
            have := hagree (jj + 1) (by omega)
            rw [show i0 + (jj + 1) = (i0 + 1) + jj by omega] at this
            exact this

namespace Keyed

/-- `MAX_FILE_SIZE` of `src/unnamed/part_003` (10 MB). -/
def MAX_FILE_SIZE : Nat := 10 * 1024 * 1024

/-- `MAX_RETRIES` of `src/unnamed/part_003`. -/
def MAX_RETRIES : Nat := 3

/-- One attempt of the multi-key controller, as recorded in its trace:
either a request was actually sent (`fetched retryCount keyIndex`), or the
`if (!apiKey)` guard fired and no request was sent (`noKey`). -/
inductive Event where
  | fetched (retryCount keyIndex : Nat)
  | noKey (retryCount keyIndex : Nat)
deriving DecidableEq

/-- Result state of one run of the multi-key retry controller. -/
inductive RetryState where
  | attempting (retryCount keyIndex : Nat)
  | success (text : Str)
  | failed (err : Str)
deriving DecidableEq

/-- Embedding of `transcribeChunkWithRetry` (`src/unnamed/part_003`,
lines 133-187).  `API_KEYS` is the module-level key list after
`.filter(Boolean)`; an out-of-range index or an empty (falsy) key triggers the
`throw new Error('No valid API key available')` guard, which lands in the
`catch` block like every other thrown error.  On HTTP 429 the code rotates to
`keyIndex + 1` without touching `retryCount` while `keyIndex + 1 <
API_KEYS.length`, and otherwise sleeps and restarts at key 0 with
`retryCount + 1` — without consulting `MAX_RETRIES`.  All other failures go
through the `catch` block: retry with `(keyIndex + 1) % API_KEYS.length` while
`retryCount < maxRetries`, else rethrow.  `backend j` is the response to the
j-th request actually sent in this run. -/
def transcribeChunkWithRetry (API_KEYS : List Str) (maxRetries : Nat)
    (backend : Nat → Response) :
    Nat → Nat → Nat → Nat → List Event → RetryState × List Event
  | 0, retryCount, keyIndex, _, trace => (.attempting retryCount keyIndex, trace)
  | fuel + 1, retryCount, keyIndex, j, trace =>
      if (API_KEYS.getD keyIndex []) = [] then
        if retryCount < maxRetries then
          transcribeChunkWithRetry API_KEYS maxRetries backend fuel (retryCount + 1)
            ((keyIndex + 1) % API_KEYS.length) j (trace ++ [.noKey retryCount keyIndex])
        else
          (.failed ("No valid API key available".data), trace ++ [.noKey retryCount keyIndex])
      else
        match backend j with
        | .ok t => (.success t, trace ++ [.fetched retryCount keyIndex])
        | .httpErr 429 _ =>
            if keyIndex + 1 < API_KEYS.length then
              transcribeChunkWithRetry API_KEYS maxRetries backend fuel retryCount
                (keyIndex + 1) (j + 1) (trace ++ [.fetched retryCount keyIndex])
            else
              transcribeChunkWithRetry API_KEYS maxRetries backend fuel (retryCount + 1) 0
                (j + 1) (trace ++ [.fetched retryCount keyIndex])
        | r =>
            if retryCount < maxRetries then
              transcribeChunkWithRetry API_KEYS maxRetries backend fuel (retryCount + 1)
                ((keyIndex + 1) % API_KEYS.length) (j + 1)
                (trace ++ [.fetched retryCount keyIndex])
            else (.failed (throwMsg r), trace ++ [.fetched retryCount keyIndex])

/-- An attempt event that sent a request with a key index below `n`. -/
def keyIndexOK (n : Nat) : Event → Bool
  | .fetched _ ki => decide (ki < n)
  | .noKey _ _ => false

end Keyed

theorem keys_getD_ne_nil (keys : List Str) (ki : Nat) (hki : ki < keys.length)
    (htruthy : ∀ k ∈ keys, k ≠ []) : keys.getD ki [] ≠ [] := by
  rw [List.getD_eq_getElem?_getD, List.getElem?_eq_getElem hki, Option.getD_some]
  exact htruthy _ (List.getElem_mem hki)

theorem keyIndex_invariant (keys : List Str) (maxR : Nat) (backend : Nat → Response)
    (htruthy : ∀ k ∈ keys, k ≠ []) :
    ∀ fuel rc ki j trace, ki < keys.length →
      (∀ e ∈ trace, Keyed.keyIndexOK keys.length e = true) →
      ∀ e ∈ (Keyed.transcribeChunkWithRetry keys maxR backend fuel rc ki j trace).2,
        Keyed.keyIndexOK keys.length e = true := by
  intro fuel
  induction fuel with
  | zero =>
      intro rc ki j trace hki hacc
      simpa [Keyed.transcribeChunkWithRetry] using hacc
  | succ fuel ih =>
      intro rc ki j trace hki hacc
      have hN : 0 < keys.length := by omega
      have hkey := keys_getD_ne_nil keys ki hki htruthy
      have hacc' : ∀ e ∈ trace ++ [Keyed.Event.fetched rc ki],
          Keyed.keyIndexOK keys.length e = true := by
        intro e he
        rcases List.mem_append.mp he with he | he
        · exact hacc e he
        · simp at he
          subst he
          simp [Keyed.keyIndexOK, hki]
      simp only [Keyed.transcribeChunkWithRetry]
      rw [if_neg hkey]
      split
      · exact hacc'
      · by_cases hrot : ki + 1 < keys.length
        · rw [if_pos hrot]
          exact ih rc (ki + 1) (j + 1) _ hrot hacc'
        · rw [if_neg hrot]
          exact ih (rc + 1) 0 (j + 1) _ hN hacc'
      · by_cases hrc : rc < maxR
        · rw [if_pos hrc]
          exact ih (rc + 1) ((ki + 1) % keys.length) (j + 1) _ (Nat.mod_lt _ hN) hacc'
        · rw [if_neg hrc]
          exact hacc'

/-- A backend that answers HTTP 429 to every request. -/
def always429 : Nat → Response := fun _ => Response.httpErr 429 none

/-- A backend that answers HTTP 413 to every request. -/
def always413 : Nat → Response := fun _ => Response.httpErr 413 none

/-- A single-element credential list. -/
def oneKey : List Str := [['k']]

/-- A two-element credential list. -/
def keys2 : List Str := [['a'], ['b']]

theorem rotation_sweep (keys : List Str) (maxR : Nat) (backend : Nat → Response)
    (htruthy : ∀ k ∈ keys, k ≠ []) (hb : ∀ j, Is429 (backend j)) :
    ∀ k s j trace, s + k = keys.length → 0 < k →
      Keyed.transcribeChunkWithRetry keys maxR backend k 0 s j trace
        = (.attempting 1 0,
            trace ++ (List.range' s k).map (fun i => Keyed.Event.fetched 0 i)) := by
  intro k
  induction k with
  | zero => intro s j trace _ h0; omega
  | succ k ih =>
      intro s j trace hsum hpos
      have hs : s < keys.length := by omega
      have hkey := keys_getD_ne_nil keys s hs htruthy
      cases hbj : backend j with
      | ok t =>
          have hT := hb j
          rw [hbj] at hT
          exact absurd hT (by simp [Is429])
      | networkErr m =>
          have hT := hb j
          rw [hbj] at hT
          exact absurd hT (by simp [Is429])
      | httpErr status m =>
          have hT := hb j
          rw [hbj] at hT
          simp only [Is429] at hT
          subst hT
          simp only [Keyed.transcribeChunkWithRetry]
          rw [if_neg hkey, hbj]
          by_cases hrot : s + 1 < keys.length
          · rw [if_pos hrot]
            rw [ih (s + 1) (j + 1) _ (by omega) (by omega)]
            rw [List.range'_succ, List.map_cons, List.append_assoc, List.singleton_append]
          · rw [if_neg hrot]
            have hk0 : k = 0 := by omega
            subst hk0
            simp only [Keyed.transcribeChunkWithRetry]
            rw [List.range'_one, List.map_cons, List.map_nil]

theorem always429_sweep_from_zero (keys : List Str) (maxR : Nat)
    (backend : Nat → Response) (htruthy : ∀ k ∈ keys, k ≠ [])
    (hb : ∀ j, Is429 (backend j)) (hkeys : keys ≠ []) (j : Nat) :
    Keyed.transcribeChunkWithRetry keys maxR backend keys.length 0 0 j []
      = (.attempting 1 0,
          (List.range keys.length).map (fun i => Keyed.Event.fetched 0 i)) := by
  have h := rotation_sweep keys maxR backend htruthy hb keys.length 0 j [] (by omega)
    (length_pos_of_ne_nil' hkeys)
  rw [h, List.range_eq_range', List.nil_append]

/-- C4: for every audio buffer and every positive maximum segment size `M`,
the segmenter terminates and produces exactly `ceil(L/M)` contiguous,
non-overlapping segments in increasing offset order (their in-order
concatenation is the input buffer), whose lengths sum exactly to `L`; every
segment except the last is exactly `M` bytes and the last holds `L mod M`
bytes (or `M` bytes when `M` divides `L`). -/
theorem C4_segmenter_correct (buffer : List Nat) (M : Nat) (hM : 0 < M) :
    Part015.splitBuffer buffer M = some (chunksOf M buffer)
    ∧ (chunksOf M buffer).length = (buffer.length + M - 1) / M
    ∧ (chunksOf M buffer).flatten = buffer
    ∧ ((chunksOf M buffer).map List.length).sum = buffer.length
    ∧ (∀ c ∈ (chunksOf M buffer).dropLast, c.length = M)
    ∧ (∀ c, (chunksOf M buffer).getLast? = some c →
        c.length = if buffer.length % M = 0 then M else buffer.length % M) := by
  refine ⟨splitBuffer_eq_chunksOf buffer M hM, ?_, ?_, ?_, ?_, ?_⟩
  · exact chunksOfGo_length M hM buffer.length buffer (Nat.le_refl _)
  · exact chunksOfGo_flatten M hM buffer.length buffer (Nat.le_refl _)
  · have hf : (chunksOf M buffer).flatten = buffer :=
      chunksOfGo_flatten M hM buffer.length buffer (Nat.le_refl _)
    rw [← List.length_flatten, hf]
  · exact chunksOfGo_dropLast_length M hM buffer.length buffer (Nat.le_refl _)
  · intro c hc
    by_cases hbuf : buffer = []
    · subst hbuf
      simp [chunksOf, chunksOfGo_nil] at hc
    · exact chunksOfGo_getLast M hM buffer.length buffer (Nat.le_refl _) hbuf c hc

theorem C4_witness :
    Part015.splitBuffer [0, 1, 2, 3, 4] 2 = some [[0, 1], [2, 3], [4]]
    ∧ ((chunksOf 2 [0, 1, 2, 3, 4]).map List.length).sum = 5 := by
  have h := C4_segmenter_correct [0, 1, 2, 3, 4] 2 (by decide)
  refine ⟨?_, ?_⟩
  · rw [h.1]; decide
  · exact h.2.2.2.1

/-- C8 counterexample: called with maximum segment size 0 on the nonempty
buffer [0], the segmenter does not fail with a ConfigurationError (no such
error path exists in `splitBuffer`): the loop simply never terminates — here
shown still unfinished after 100 iterations; `C8_amended_segmenter` proves
the `= none` outcome for every amount of fuel. -/
theorem C8_counterexample :
    Part015.splitBuffer [0] 0 = none
    ∧ Part015.splitBufferGo [0] 0 100 0 [] = none := by
  constructor
  · exact splitBufferGo_zero_diverges [0] 1 0 [] (by decide)
  · exact splitBufferGo_zero_diverges [0] 100 0 [] (by decide)

/-- C8 (amended): the segmenter performs no configuration validation and has
no error result at all: for every positive maximum segment size it terminates
and succeeds, while for maximum segment size 0 (the non-positive case in this
embedding) on a nonempty buffer the `while` loop never terminates — no
ConfigurationError is ever produced. -/
theorem C8_amended_segmenter (buffer : List Nat) (M fuel : Nat) :
    (0 < M → (Part015.splitBuffer buffer M).isSome = true)
    ∧ (M = 0 → buffer ≠ [] → Part015.splitBufferGo buffer 0 fuel 0 [] = none) := by
  constructor
  · intro hM
    rw [splitBuffer_eq_chunksOf buffer M hM]
    rfl
  · intro _ hne
    exact splitBufferGo_zero_diverges buffer fuel 0 [] (length_pos_of_ne_nil' hne)

theorem C8_witness :
    (Part015.splitBuffer [0, 1] 1).isSome = true
    ∧ Part015.splitBufferGo [0, 1] 0 5 0 [] = none :=
  ⟨(C8_amended_segmenter [0, 1] 1 5).1 (by decide),
   (C8_amended_segmenter [0, 1] 0 5).2 rfl (by decide)⟩

/-- C1 counterexample: with the two-credential list `keys2` and starting
credential index 1 (reachable, since the start index is drawn randomly from
[0, N)), an always-429 backend sees the retry counter already incremented to 1
after a single attempt that used only credential index 1 — so not all `N = 2`
credentials were attempted before the first increment. -/
theorem C1_counterexample :
    Keyed.transcribeChunkWithRetry keys2 Keyed.MAX_RETRIES always429 1 0 1 0 []
      = (.attempting 1 0, [Keyed.Event.fetched 0 1]) := by
  decide

/-- C1 (amended): on a RateLimited response the controller advances to the
next credential without incrementing the retry count only while
higher-indexed credentials remain.  Started at credential index `s`, an
always-429 backend sees exactly the credentials `s, s+1, ..., N-1` attempted
at retry level 0 before the counter is incremented for the first time
(resetting to credential 0); all `N` credentials are attempted before the
first increment precisely when the starting index is 0. -/
theorem C1_amended_rotation (keys : List Str) (maxR : Nat) (backend : Nat → Response)
    (s j : Nat) (htruthy : ∀ k ∈ keys, k ≠ []) (hb : ∀ i, Is429 (backend i))
    (hs : s < keys.length) :
    Keyed.transcribeChunkWithRetry keys maxR backend (keys.length - s) 0 s j []
      = (.attempting 1 0,
          (List.range' s (keys.length - s)).map (fun i => Keyed.Event.fetched 0 i)) := by
  have h := rotation_sweep keys maxR backend htruthy hb (keys.length - s) s j []
    (by omega) (by omega)
  rw [h, List.nil_append]

theorem C1_witness :
    Keyed.transcribeChunkWithRetry keys2 Keyed.MAX_RETRIES always429 2 0 0 0 []
      = (.attempting 1 0, [Keyed.Event.fetched 0 0, Keyed.Event.fetched 0 1]) :=
  C1_amended_rotation keys2 Keyed.MAX_RETRIES always429 0 0 (by decide)
    (fun _ => rfl) (by decide)

/-- C2 (code bug): with a single credential, a backend that answers HTTP 429
to every request never reaches a terminal state: after any number `fuel` of
attempts the controller is still running with `retryCount = rc + fuel`, far
beyond `MAX_RETRIES`, and no error is ever propagated.  The all-keys-rate-
limited branch recurses with `retryCount + 1` without consulting
`MAX_RETRIES`, so the retry count is not bounded by `0..max`. -/
theorem C2_unbounded_429_retries : ∀ fuel rc j trace,
    Keyed.transcribeChunkWithRetry oneKey Keyed.MAX_RETRIES always429 fuel rc 0 j trace
      = (.attempting (rc + fuel) 0,
          trace ++ (List.range' rc fuel).map (fun r => Keyed.Event.fetched r 0)) := by
  intro fuel
  induction fuel with
  | zero =>
      intro rc j trace
      simp [Keyed.transcribeChunkWithRetry]
  | succ fuel ih =>
      intro rc j trace
      have hstep : Keyed.transcribeChunkWithRetry oneKey Keyed.MAX_RETRIES always429
          (fuel + 1) rc 0 j trace
        = Keyed.transcribeChunkWithRetry oneKey Keyed.MAX_RETRIES always429 fuel (rc + 1) 0
            (j + 1) (trace ++ [Keyed.Event.fetched rc 0]) := rfl
      rw [hstep, ih]
      rw [show rc + 1 + fuel = rc + (fuel + 1) by omega]
      rw [List.range'_succ, List.map_cons, List.append_assoc, List.singleton_append]

/-- C9: provided the credential list is non-empty and every key is truthy (as
`filter(Boolean)` guarantees) and the random starting index is in range (as
`Math.floor(Math.random() * N) < N` guarantees), every attempt performed by
`transcribeChunkWithRetry` actually sends a request with a credential index in
`[0, N-1]`: the rotation on 429, the reset to credential 0, and the modulo
round-robin advance all preserve the bound, so the `No valid API key
available` guard (a `noKey` event) never fires. -/
theorem C9_key_index_in_range (keys : List Str) (maxR fuel startIndex j : Nat)
    (backend : Nat → Response)
    (htruthy : ∀ k ∈ keys, k ≠ []) (hstart : startIndex < keys.length) :
    ∀ e ∈ (Keyed.transcribeChunkWithRetry keys maxR backend fuel 0 startIndex j []).2,
      Keyed.keyIndexOK keys.length e = true :=
  keyIndex_invariant keys maxR backend htruthy fuel 0 startIndex j [] hstart (by simp)

theorem C9_witness :
    ((Keyed.transcribeChunkWithRetry keys2 Keyed.MAX_RETRIES always429 5 0 1 0 []).2).all
      (Keyed.keyIndexOK keys2.length) = true := by
  have h := C9_key_index_in_range keys2 Keyed.MAX_RETRIES 5 1 0 always429 (by decide)
    (by decide)
  exact List.all_eq_true.mpr h

/-- C3 (code bug): a segment whose every attempt is answered HTTP 413 is not
surfaced immediately: the dedicated PayloadTooLarge error is thrown inside the
`try`, lands in the generic `catch`, and the very same segment is attempted
`MAX_RETRIES + 1 = 4` times (retry counts 0, 1, 2, 3 in the trace) before the
413 message is finally propagated. -/
theorem C3_413_is_retried :
    Client.transcribeChunkWithRetry Client.MAX_RETRIES always413 10 0 0 []
      = (.failed (throwMsg (Response.httpErr 413 none)), [0, 1, 2, 3]) := by
  decide

/-- C10: for an audio source of length 0, `transcribeAudio` produces zero
chunks, issues no transcription requests at all (empty event trace), and
returns the empty transcript rather than failing — for every backend and every
fuel. -/
theorem C10_empty_audio (backend : Nat → Nat → Response) (fuel : Nat) :
    Client.transcribeAudio backend fuel [] = (some (.ok []), [])
    ∧ Client.splitLoop [] Client.MAX_FILE_SIZE 0 0 [] = some [] :=
  ⟨rfl, rfl⟩

/-- C5: whenever every chunk's controller run ends in success — no matter how
much retry activity happened inside each run — the final transcript returned
by `transcribeAudio` is the trimmed space-joined concatenation of the
per-chunk texts in chunk (offset) order. -/
theorem C5_transcript_joined (M maxR fuelC : Nat) (audio : List Nat)
    (backend : Nat → Nat → Response) (ts : List Str)
    (hM : 0 < M) (hlen : ts.length = (chunksOf M audio).length)
    (hsucc : ∀ jj (h : jj < ts.length),
      (Client.transcribeChunkWithRetry maxR (backend jj) fuelC 0 0 []).1
        = .success (ts.get ⟨jj, h⟩)) :
    (Client.transcribeAudioWith M maxR backend fuelC audio).1
      = some (.ok (jsTrim (spaceJoin ts))) := by
  rw [transcribeAudioWith_eq_processLoop M maxR hM backend fuelC audio]
  have hs0 : ∀ jj (h : jj < ts.length),
      (Client.transcribeChunkWithRetry maxR (backend (0 + jj)) fuelC 0 0 []).1
        = .success (ts.get ⟨jj, h⟩) := by
    intro jj h
    rw [Nat.zero_add]
    exact hsucc jj h
  rw [processLoop_success_all maxR backend fuelC (chunksOf M audio) ts 0 [] [] hlen hs0]
  rw [List.nil_append, jsTrim_flatten_map_space]

/-- A backend for the three-chunk success scenario: chunk 0 transcribes to
"a", chunk 1 to "b", chunk 2 to "c", each on the first attempt. -/
def abcBackend : Nat → Nat → Response := fun i _ =>
  Response.ok (if i = 0 then ['a'] else if i = 1 then ['b'] else ['c'])

/-- The per-chunk texts of the three-chunk scenario. -/
def abcTexts : List Str := [['a'], ['b'], ['c']]

theorem C5_witness :
    (Client.transcribeAudioWith 2 Client.MAX_RETRIES abcBackend 1 [0, 1, 2, 3, 4]).1
      = some (.ok ['a', ' ', 'b', ' ', 'c']) := by
  have h := C5_transcript_joined 2 Client.MAX_RETRIES 1 [0, 1, 2, 3, 4] abcBackend abcTexts
    (by decide) (by decide) (by decide)
  rw [h]
  rfl

/-- C6: with `maxRetries = R`, if every response for a segment is a transient
retryable error (network failure or a non-413, non-429 HTTP error), the
controller performs exactly `R + 1` attempts for that segment (retry counts
`0..R`, i.e. the initial attempt plus `R` retries) and then fails with the
last thrown message, and the pipeline surfaces the wrapped chunk-processing
failure for that (first) segment. -/
theorem C6_attempt_count (R fuelC M : Nat) (audio : List Nat)
    (backend : Nat → Nat → Response)
    (htrans : ∀ i j, Transient (backend i j)) (hfuel : R + 1 ≤ fuelC)
    (hM : 0 < M) (haudio : audio ≠ []) :
    Client.transcribeChunkWithRetry R (backend 0) fuelC 0 0 []
        = (.failed (throwMsg (backend 0 R)), List.range (R + 1))
    ∧ (Client.transcribeAudioWith M R backend fuelC audio).1
        = some (.error (Client.failMsg 1 (throwMsg (backend 0 R)))) := by
  have hctrl := retry_always_transient R (backend 0) (htrans 0) fuelC 0 0 []
    (by omega) (by omega)
  rw [show 0 + (R - 0) = R by omega, show R + 1 - 0 = R + 1 by omega,
    List.nil_append, ← List.range_eq_range'] at hctrl
  constructor
  · exact hctrl
  · rw [transcribeAudioWith_eq_processLoop M R hM backend fuelC audio]
    rcases hcs : chunksOf M audio with _ | ⟨c, rest⟩
    · exact absurd hcs (chunksOf_ne_nil M audio haudio)
    · rw [processLoop_cons_failed R backend fuelC c rest 0 [] []
        (throwMsg (backend 0 R)) (List.range (R + 1)) hctrl]

/-- A backend whose every response is the same network failure. -/
def boomBackend : Nat → Nat → Response := fun _ _ => Response.networkErr ['b', 'o', 'o', 'm']

theorem C6_witness :
    Client.transcribeChunkWithRetry 1 (boomBackend 0) 2 0 0 []
        = (.failed (throwMsg (boomBackend 0 1)), List.range 2)
    ∧ (Client.transcribeAudioWith 1 1 boomBackend 2 [7]).1
        = some (.error (Client.failMsg 1 (throwMsg (boomBackend 0 1)))) :=
  C6_attempt_count 1 2 1 [7] boomBackend (fun _ _ => trivial) (by decide) (by decide)
    (by decide)

/-- C7: if chunk `i`'s controller run exhausts its retries while every earlier
chunk succeeded, the aggregator aborts there: it surfaces the error
`Failed to process chunk i+1` naming the failing chunk under the consistent
1-based convention, and the whole run — result and request trace alike — is
unchanged under arbitrary modification of the backend's behaviour on the
chunks after `i`, i.e. no later chunk is ever attempted. -/
theorem C7_abort_on_exhaustion (M maxR fuelC : Nat) (audio : List Nat)
    (backend backend2 : Nat → Nat → Response) (i : Nat) (e : Str)
    (hM : 0 < M) (hi : i < (chunksOf M audio).length)
    (hpre : ∀ jj, jj < i → ∃ t,
      (Client.transcribeChunkWithRetry maxR (backend jj) fuelC 0 0 []).1 = .success t)
    (hfail : (Client.transcribeChunkWithRetry maxR (backend i) fuelC 0 0 []).1 = .failed e)
    (hagree : ∀ jj, jj ≤ i → backend2 jj = backend jj) :
    (Client.transcribeAudioWith M maxR backend fuelC audio).1
        = some (.error (Client.failMsg (i + 1) e))
    ∧ Client.transcribeAudioWith M maxR backend2 fuelC audio
        = Client.transcribeAudioWith M maxR backend fuelC audio := by
  have hpre0 : ∀ jj, jj < i → ∃ t,
      (Client.transcribeChunkWithRetry maxR (backend (0 + jj)) fuelC 0 0 []).1
        = .success t := by
    intro jj h
    rw [Nat.zero_add]
    exact hpre jj h
  have hfail0 : (Client.transcribeChunkWithRetry maxR (backend (0 + i)) fuelC 0 0 []).1
      = .failed e := by
    rw [Nat.zero_add]
    exact hfail
  constructor
  · rw [transcribeAudioWith_eq_processLoop M maxR hM backend fuelC audio]
    have habort := processLoop_abort maxR backend fuelC e (chunksOf M audio) i 0 [] []
      hi hpre0 hfail0
    rw [habort, Nat.zero_add]
  · rw [transcribeAudioWith_eq_processLoop M maxR hM backend fuelC audio,
      transcribeAudioWith_eq_processLoop M maxR hM backend2 fuelC audio]
    apply processLoop_agree maxR backend backend2 fuelC (chunksOf M audio) i 0 [] [] hi
      hpre0 ⟨e, hfail0⟩
    intro jj h
    rw [Nat.zero_add]
    exact hagree jj h

/-- A backend where chunk 0 succeeds with "a" and every later chunk always
fails with the same network error. -/
def failSecond : Nat → Nat → Response := fun i _ =>
  if i = 0 then Response.ok ['a'] else Response.networkErr ['x']

/-- `failSecond` with the behaviour of chunks after index 1 replaced by
immediate success; the pipeline never reaches them. -/
def failSecondAlt : Nat → Nat → Response := fun i j =>
  if i ≤ 1 then failSecond i j else Response.ok ['z']

theorem C7_witness :
    (Client.transcribeAudioWith 2 Client.MAX_RETRIES failSecond 4 [0, 1, 2, 3, 4, 5]).1
        = some (.error (Client.failMsg 2 ['x']))
    ∧ Client.transcribeAudioWith 2 Client.MAX_RETRIES failSecondAlt 4 [0, 1, 2, 3, 4, 5]
        = Client.transcribeAudioWith 2 Client.MAX_RETRIES failSecond 4 [0, 1, 2, 3, 4, 5] :=
  C7_abort_on_exhaustion 2 Client.MAX_RETRIES 4 [0, 1, 2, 3, 4, 5] failSecond failSecondAlt
    1 ['x'] (by decide) (by decide)
    (fun jj hj => by interval_cases jj; exact ⟨['a'], by decide⟩)
    (by decide)
    (fun jj hj => funext fun j' => by interval_cases jj <;> rfl)
